import Mathlib

/-!
Formal model of egui's `DragValue` widget
(`crates/egui/src/widgets/drag_value.rs`).

The widget's numeric values are IEEE-754 `f64` in the source.  Two levels of
modelling are used here:

* `F64` models an `f64` at exactly the granularity `f64::total_cmp` observes
  (NaN payloads collapsed to their sign bit): the range clamper
  `clamp_to_range` performs no arithmetic at all, only `total_cmp`
  comparisons, so this model is exact for it.

* The value pipeline (precision inference, drag accumulation, text-edit
  commits) does real arithmetic; it is modelled over `ℚ`, the standard
  exact-arithmetic idealization of floating point.  On this pipeline
  `total_cmp` coincides with the ordinary linear order of `ℚ`.
-/

/-- Model of an IEEE-754 `f64` at the granularity `f64::total_cmp` observes.
`finite q` holds every finite value, with `finite 0` standing for `+0.0`;
`-0.0` is the separate constructor `negZero`, which `total_cmp` orders
strictly between the negative numbers and `+0.0`.  NaN payload bits are
collapsed to the sign bit (`nanNeg`, `nanPos`), which `total_cmp` cannot
distinguish further from the outside in any way this file uses. -/
inductive F64 where
  | nanNeg : F64
  | negInf : F64
  | negZero : F64
  | finite : ℚ → F64
  | posInf : F64
  | nanPos : F64
deriving DecidableEq, Repr

/-- The sort key of the IEEE total order: a negative-sign NaN sorts below
everything, then `-inf`, then finite values (with `-0.0` immediately below
`+0.0`), then `+inf`, then a positive-sign NaN.  The first component is the
class level, the second the numeric value, the third separates `-0.0` from
`+0.0`. -/
def F64.key : F64 → Lex (ℤ × Lex (ℚ × ℤ))
  | .nanNeg => toLex (-2, toLex (0, 0))
  | .negInf => toLex (-1, toLex (0, 0))
  | .negZero => toLex (0, toLex (0, -1))
  | .finite q => toLex (0, toLex (q, 0))
  | .posInf => toLex (1, toLex (0, 0))
  | .nanPos => toLex (2, toLex (0, 0))

/-- Model of `f64::total_cmp`: the comparison induced by `F64.key`. -/
def F64.totalCmp (x y : F64) : Ordering :=
  if x.key < y.key then .lt else if y.key < x.key then .gt else .eq

/-- `f64::MAX = (2^53 - 1) * 2^971 = 2^1024 - 2^971`, given directly as a
normalized rational so that kernel reduction can evaluate comparisons
against it. -/
def f64MaxQ : ℚ := ⟨2 ^ 1024 - 2 ^ 971, 1, one_ne_zero, Nat.coprime_one_right _⟩

/-- `min` of the bound normalization in `clamp_to_range` (drag_value.rs
511-515): the two bounds are swapped when `min.total_cmp(&max) == Greater`. -/
def rangeMin (lo hi : F64) : F64 := if lo.totalCmp hi = .gt then hi else lo

/-- `max` of the bound normalization in `clamp_to_range` (drag_value.rs
511-515). -/
def rangeMax (lo hi : F64) : F64 := if lo.totalCmp hi = .gt then lo else hi

/-- `clamp_to_range` (drag_value.rs 510-524): normalize the bounds under the
total order, then return `min` when `x` compares `Less | Equal` to it,
`max` when `x` compares `Greater | Equal` to it, and `x` itself otherwise.
Returning the bound (not `x`) on `Equal` is what preserves the bound's
sign-of-zero. -/
def clamp_to_range (x lo hi : F64) : F64 :=
  match x.totalCmp (rangeMin lo hi) with
  | .lt | .eq => rangeMin lo hi
  | .gt =>
    match x.totalCmp (rangeMax lo hi) with
    | .gt | .eq => rangeMax lo hi
    | .lt => x

theorem F64.key_injective : Function.Injective F64.key := by
  intro x y h
  cases x <;> cases y <;> simp_all [F64.key]

theorem F64.totalCmp_lt_iff {x y : F64} : x.totalCmp y = .lt ↔ x.key < y.key := by
  unfold F64.totalCmp
  split_ifs with h1 h2 <;> simp_all

theorem F64.totalCmp_gt_iff {x y : F64} : x.totalCmp y = .gt ↔ y.key < x.key := by
  unfold F64.totalCmp
  split_ifs with h1 h2 <;> simp_all
  exact le_of_lt h1

theorem F64.totalCmp_eq_iff {x y : F64} : x.totalCmp y = .eq ↔ x = y := by
  unfold F64.totalCmp
  split_ifs with h1 h2
  · simp only [reduceCtorEq, false_iff]
    rintro rfl; exact lt_irrefl _ h1
  · simp only [reduceCtorEq, false_iff]
    rintro rfl; exact lt_irrefl _ h2
  · simp only [true_iff]
    exact F64.key_injective (le_antisymm (not_lt.mp h2) (not_lt.mp h1))

theorem F64.totalCmp_ne_gt_iff {x y : F64} : x.totalCmp y ≠ .gt ↔ x.key ≤ y.key := by
  simp only [ne_eq, F64.totalCmp_gt_iff, not_lt]

theorem F64.totalCmp_ne_lt_iff {x y : F64} : x.totalCmp y ≠ .lt ↔ y.key ≤ x.key := by
  simp only [ne_eq, F64.totalCmp_lt_iff, not_lt]

theorem F64.key_finite_lt_finite {a b : ℚ} (h : a < b) :
    (F64.finite a).key < (F64.finite b).key := by
  show toLex ((0 : ℤ), toLex (a, (0 : ℤ))) < toLex ((0 : ℤ), toLex (b, (0 : ℤ)))
  rw [Prod.Lex.lt_iff]
  right
  refine ⟨rfl, ?_⟩
  rw [Prod.Lex.lt_iff]
  left
  exact h

theorem f64MaxQ_pos : (0 : ℚ) < f64MaxQ := by
  rw [← Rat.num_pos]
  norm_num [f64MaxQ]

theorem rangeMin_key_le_rangeMax_key (lo hi : F64) :
    (rangeMin lo hi).key ≤ (rangeMax lo hi).key := by
  unfold rangeMin rangeMax
  split_ifs with h
  · exact le_of_lt (F64.totalCmp_gt_iff.mp h)
  · exact F64.totalCmp_ne_gt_iff.mp h

/-- C1: for every `f64` `x` and every clamp range `[lo, hi]` (possibly
inverted), `clamp_to_range x lo hi` lies within the normalized range
`[rangeMin, rangeMax]` under total comparison; whenever `x` totally-equals a
bound or lies outside it the result is that exact bound value (bit-for-bit,
preserving sign of zero), and otherwise the result is `x` itself; and the
four concrete cases `clamp(-0.0, [0.0, MAX]) == 0.0`,
`clamp(0.0, [-1.0, -0.0]) == -0.0`, `clamp(5.0, [10.0, 1.0]) == 5.0`,
`clamp(-5.0, [5.0, 1.0]) == 1.0` hold exactly. -/
theorem C1_clamp_total_order :
    (∀ x lo hi : F64,
      ((clamp_to_range x lo hi).totalCmp (rangeMin lo hi) ≠ .lt
        ∧ (clamp_to_range x lo hi).totalCmp (rangeMax lo hi) ≠ .gt)
      ∧ (x.totalCmp (rangeMin lo hi) ≠ .gt → clamp_to_range x lo hi = rangeMin lo hi)
      ∧ ((rangeMin lo hi).totalCmp x = .lt → x.totalCmp (rangeMax lo hi) ≠ .lt →
          clamp_to_range x lo hi = rangeMax lo hi)
      ∧ ((rangeMin lo hi).totalCmp x = .lt → x.totalCmp (rangeMax lo hi) = .lt →
          clamp_to_range x lo hi = x))
    ∧ clamp_to_range .negZero (.finite 0) (.finite f64MaxQ) = .finite 0
    ∧ clamp_to_range (.finite 0) (.finite (-1)) .negZero = .negZero
    ∧ clamp_to_range (.finite 5) (.finite 10) (.finite 1) = .finite 5
    ∧ clamp_to_range (.finite (-5)) (.finite 5) (.finite 1) = .finite 1 := by
  have hmax : clamp_to_range .negZero (.finite 0) (.finite f64MaxQ) = .finite 0 := by
    have hne : (F64.finite 0).totalCmp (.finite f64MaxQ) ≠ .gt := by
      rw [F64.totalCmp_ne_gt_iff]
      exact le_of_lt (F64.key_finite_lt_finite f64MaxQ_pos)
    have hmin : rangeMin (.finite 0) (.finite f64MaxQ) = .finite 0 := by
      unfold rangeMin; rw [if_neg hne]
    unfold clamp_to_range
    rw [hmin]
    decide
  refine ⟨?_, hmax, by decide, by decide, by decide⟩
  intro x lo hi
  have hmM := rangeMin_key_le_rangeMax_key lo hi
  rcases h1 : x.totalCmp (rangeMin lo hi) with _ | _ | _
  · have hres : clamp_to_range x lo hi = rangeMin lo hi := by
      simp only [clamp_to_range, h1]
    have hxm := F64.totalCmp_lt_iff.mp h1
    refine ⟨⟨?_, ?_⟩, fun _ => hres, fun hlt _ => ?_, fun hlt _ => ?_⟩
    · rw [hres, F64.totalCmp_ne_lt_iff]
    · rw [hres, F64.totalCmp_ne_gt_iff]; exact hmM
    · exact absurd (F64.totalCmp_lt_iff.mp hlt) (not_lt.mpr (le_of_lt hxm))
    · exact absurd (F64.totalCmp_lt_iff.mp hlt) (not_lt.mpr (le_of_lt hxm))
  · have hres : clamp_to_range x lo hi = rangeMin lo hi := by
      simp only [clamp_to_range, h1]
    have hxm : x = rangeMin lo hi := F64.totalCmp_eq_iff.mp h1
    refine ⟨⟨?_, ?_⟩, fun _ => hres, fun hlt _ => ?_, fun hlt _ => ?_⟩
    · rw [hres, F64.totalCmp_ne_lt_iff]
    · rw [hres, F64.totalCmp_ne_gt_iff]; exact hmM
    · exact absurd (F64.totalCmp_lt_iff.mp hlt) (by rw [hxm]; exact lt_irrefl _)
    · exact absurd (F64.totalCmp_lt_iff.mp hlt) (by rw [hxm]; exact lt_irrefl _)
  · have hxm := F64.totalCmp_gt_iff.mp h1
    rcases h2 : x.totalCmp (rangeMax lo hi) with _ | _ | _
    · have hres : clamp_to_range x lo hi = x := by
        simp only [clamp_to_range, h1, h2]
      have hxM := F64.totalCmp_lt_iff.mp h2
      refine ⟨⟨?_, ?_⟩, fun hle => absurd rfl hle, fun _ hne => absurd rfl hne,
        fun _ _ => hres⟩
      · rw [hres, F64.totalCmp_ne_lt_iff]; exact le_of_lt hxm
      · rw [hres, F64.totalCmp_ne_gt_iff]; exact le_of_lt hxM
    · have hres : clamp_to_range x lo hi = rangeMax lo hi := by
        simp only [clamp_to_range, h1, h2]
      refine ⟨⟨?_, ?_⟩, fun hle => absurd rfl hle, fun _ _ => hres,
        fun _ hlt => absurd hlt (by decide)⟩
      · rw [hres, F64.totalCmp_ne_lt_iff]; exact hmM
      · rw [hres, F64.totalCmp_ne_gt_iff]
    · have hres : clamp_to_range x lo hi = rangeMax lo hi := by
        simp only [clamp_to_range, h1, h2]
      refine ⟨⟨?_, ?_⟩, fun hle => absurd rfl hle, fun _ _ => hres,
        fun _ hlt => absurd hlt (by decide)⟩
      · rw [hres, F64.totalCmp_ne_lt_iff]; exact hmM
      · rw [hres, F64.totalCmp_ne_gt_iff]

/-- C1 witness: the in-between case at a concrete input, with both
hypotheses discharged by evaluation. -/
theorem C1_witness : clamp_to_range (.finite 3) (.finite 10) (.finite 1) = .finite 3 :=
  (C1_clamp_total_order.1 (.finite 3) (.finite 10) (.finite 1)).2.2.2 (by decide) (by decide)

/-- `clamp_to_range` restricted to the value pipeline, where all numbers are
ordinary (`ℚ`-modelled) numeric values and `total_cmp` coincides with the
linear order of `ℚ`; same normalization and same bound-returning branches as
`clamp_to_range` (drag_value.rs 510-524). -/
def clampQ (x lo hi : ℚ) : ℚ :=
  let mn := if hi < lo then hi else lo
  let mx := if hi < lo then lo else hi
  if x ≤ mn then mn else if mx ≤ x then mx else x

/-- Rust `Ord::clamp` on `usize` (used at drag_value.rs line 385):
`assert!(min <= max)` panics when violated, modelled as `none`; otherwise a
value below `lo` gives `lo`, above `hi` gives `hi`, else the value itself. -/
def usizeClamp (x lo hi : ℕ) : Option ℕ :=
  if lo ≤ hi then some (if x < lo then lo else if hi < x then hi else x) else none

/-- Line 381: `(aim_rad / speed.abs()).log10().ceil().clamp(0.0, 15.0) as
usize`, under the exact-arithmetic idealization of `f64`.  For `q > 0`,
`ceil(log10 q)` clamped into `[0, 15]` equals the number of
`k ∈ {0, …, 14}` with `10^k < q`, which is how it is computed here (proved
against Mathlib's `Int.clog 10` below).  The `speed = 0` branch mirrors the
IEEE special values the source produces there: `aim / 0.0 = +inf` for
positive `aim`, whose `log10`/`ceil` clamp to 15, while `0/0` and
`negative/0` are NaN and `NaN as usize = 0`.  For negative `aim` and nonzero
speed, `log10` of a negative quotient is NaN (`as usize` gives 0), and the
count is 0 there as well. -/
def autoDecimalsRaw (aim_rad speed : ℚ) : ℕ :=
  if speed = 0 then (if 0 < aim_rad then 15 else 0)
  else ((List.range 15).filter (fun k => decide ((10 : ℚ) ^ k < aim_rad / |speed|))).length

/-- Line 382: `auto_decimals + is_slow_speed as usize`. -/
def autoDecimals (aim_rad speed : ℚ) (is_slow : Bool) : ℕ :=
  autoDecimalsRaw aim_rad speed + (if is_slow then 1 else 0)

/-- Lines 384-385: `max_decimals.unwrap_or(auto_decimals + 2)` followed by
`auto_decimals.clamp(min_decimals, max_decimals)`; `none` models the
`usize::clamp` panic when `min_decimals` exceeds the effective maximum. -/
def uiEffectiveDecimals (aim_rad speed : ℚ) (is_slow : Bool) (min_decimals : ℕ)
    (max_decimals : Option ℕ) : Option ℕ :=
  let a := autoDecimals aim_rad speed is_slow
  let m := max_decimals.getD (a + 2)
  usizeClamp a min_decimals m

/-- Spec-side definition for C2, worded after §4.2 of the spec rather than
the code: `auto_decimals = clamp(ceil(log10(aim_radius / |speed|)), 0, 15)`
(`Int.clog 10` is Mathlib's `⌈log₁₀ ·⌉`), plus 1 in slow mode, then clamped
into `[min_decimals, effective_max]` where `effective_max` is the
`max_decimals` override when given and `auto_decimals + 2` otherwise. -/
def specEffectiveDecimals (aim_rad speed : ℚ) (is_slow : Bool) (min_decimals : ℕ)
    (max_decimals : Option ℕ) : ℕ :=
  let a := (min 15 (max 0 (Int.clog 10 (aim_rad / |speed|)))).toNat
    + (if is_slow then 1 else 0)
  let m := max_decimals.getD (a + 2)
  min m (max min_decimals a)

theorem length_filter_range_lt (c : ℤ) (n : ℕ) :
    ((List.range n).filter (fun (k : ℕ) => decide ((k : ℤ) < c))).length
      = (min (n : ℤ) (max 0 c)).toNat := by
  induction n with
  | zero => simp
  | succ n ih =>
    rw [List.range_succ, List.filter_append, List.length_append, ih]
    simp only [List.filter_cons, List.filter_nil, decide_eq_true_eq]
    by_cases h : (n : ℤ) < c
    · rw [if_pos h]
      simp only [List.length_cons, List.length_nil]
      push_cast
      omega
    · rw [if_neg h]
      simp only [List.length_nil]
      push_cast
      omega

theorem autoDecimalsRaw_eq_clog (aim_rad speed : ℚ) (ha : 0 < aim_rad) (hs : speed ≠ 0) :
    autoDecimalsRaw aim_rad speed
      = (min 15 (max 0 (Int.clog 10 (aim_rad / |speed|)))).toNat := by
  unfold autoDecimalsRaw
  rw [if_neg hs]
  have hq : 0 < aim_rad / |speed| := div_pos ha (abs_pos.mpr hs)
  have hpred : ∀ k : ℕ,
      decide ((10 : ℚ) ^ k < aim_rad / |speed|)
        = decide ((k : ℤ) < Int.clog 10 (aim_rad / |speed|)) := by
    intro k
    have hiff : aim_rad / |speed| ≤ (10 : ℚ) ^ k
        ↔ Int.clog 10 (aim_rad / |speed|) ≤ (k : ℤ) := by
      rw [← zpow_natCast (10 : ℚ) k]
      exact Int.le_zpow_iff_clog_le (by norm_num) hq
    rw [decide_eq_decide, ← not_le, ← not_le]
    exact not_congr hiff
  simp only [hpred]
  exact length_filter_range_lt _ 15

theorem autoDecimalsRaw_le_15 (aim_rad speed : ℚ) : autoDecimalsRaw aim_rad speed ≤ 15 := by
  unfold autoDecimalsRaw
  split_ifs
  · exact le_refl 15
  · exact Nat.zero_le 15
  · exact le_trans (List.length_filter_le _ _) (by rw [List.length_range])

theorem usizeClamp_eq_min_max (x lo hi : ℕ) (h : lo ≤ hi) :
    usizeClamp x lo hi = some (min hi (max lo x)) := by
  unfold usizeClamp
  rw [if_pos h]
  congr 1
  split_ifs <;> omega

/-- C2: for aim_radius > 0, nonzero speed (the `speed = 0` quotient is an
IEEE special value outside the exact-arithmetic model), any slow-mode flag,
min_decimals and optional max_decimals override with min_decimals not above
the effective maximum (otherwise the frame panics, see C5), the effective
decimal count computed by lines 381-385 equals the spec's formula:
`a = clamp(ceil(log10(aim_radius/|speed|)), 0, 15)`, plus 1 in slow mode,
clamped into `[min_decimals, max_decimals_override OR a + 2]`. -/
theorem C2_effective_decimals (aim_rad speed : ℚ) (is_slow : Bool) (min_d : ℕ)
    (max_d : Option ℕ) (ha : 0 < aim_rad) (hs : speed ≠ 0)
    (hwf : min_d ≤ max_d.getD (autoDecimals aim_rad speed is_slow + 2)) :
    uiEffectiveDecimals aim_rad speed is_slow min_d max_d
      = some (specEffectiveDecimals aim_rad speed is_slow min_d max_d) := by
  have hb := autoDecimalsRaw_eq_clog aim_rad speed ha hs
  unfold autoDecimals at hwf
  unfold uiEffectiveDecimals specEffectiveDecimals autoDecimals
  rw [hb] at hwf ⊢
  exact usizeClamp_eq_min_max _ _ _ hwf

/-- C2 witness: aim_radius 10, speed 1, no slow mode, `min_decimals = 0`,
no max override; all three hypotheses hold by evaluation. -/
theorem C2_witness :
    uiEffectiveDecimals 10 1 false 0 none = some (specEffectiveDecimals 10 1 false 0 none) :=
  C2_effective_decimals 10 1 false 0 none (by decide) (by decide) (Nat.zero_le _)

/-- C5 counterexample: the builder accepts `min_decimals(5)` together with
`max_decimals(2)` — neither is the `min_width == 0` misconfiguration the
claim excludes — and the per-frame update then panics in
`auto_decimals.clamp(min_decimals, max_decimals)` (line 385), since Rust's
`Ord::clamp` asserts `min <= max`.  The panic is modelled as `none`. -/
theorem C5_counterexample_decimal_clamp_panic :
    uiEffectiveDecimals 10 1 false 5 (some 2) = none := rfl

/-- C5 amended: the per-frame decimal computation panics exactly when
`min_decimals` exceeds the effective maximum
(`max_decimals override OR auto_decimals + 2`); whenever it does not, it
yields a count `d` with `min_decimals ≤ d ≤ effective max`, as the claim
states. -/
theorem C5_decimal_clamp_no_panic (aim_rad speed : ℚ) (is_slow : Bool) (min_d : ℕ)
    (max_d : Option ℕ)
    (hwf : min_d ≤ max_d.getD (autoDecimals aim_rad speed is_slow + 2)) :
    ∃ d, uiEffectiveDecimals aim_rad speed is_slow min_d max_d = some d
      ∧ min_d ≤ d ∧ d ≤ max_d.getD (autoDecimals aim_rad speed is_slow + 2) := by
  unfold uiEffectiveDecimals usizeClamp
  rw [if_pos hwf]
  exact ⟨_, rfl, by split_ifs <;> omega, by split_ifs <;> omega⟩

/-- C5 witness: a configuration the amended claim covers, with the
hypothesis discharged by `Nat.zero_le`. -/
theorem C5_witness :
    ∃ d, uiEffectiveDecimals 10 1 false 0 (some 3) = some d ∧ 0 ≤ d ∧ d ≤ 3 :=
  C5_decimal_clamp_no_panic 10 1 false 0 (some 3) (Nat.zero_le _)

/-- C8: for fixed aim_radius > 0 and fixed slow-mode flag, the inferred
auto_decimals is antitone in `|speed|` (a larger `|speed|` never increases
it), and for every aim_radius and speed, enabling slow mode never decreases
it. -/
theorem C8_precision_monotonicity :
    (∀ (aim_rad s₁ s₂ : ℚ) (is_slow : Bool), 0 < aim_rad → |s₁| ≤ |s₂| →
      autoDecimals aim_rad s₂ is_slow ≤ autoDecimals aim_rad s₁ is_slow)
    ∧ (∀ aim_rad speed : ℚ, autoDecimals aim_rad speed false ≤ autoDecimals aim_rad speed true) := by
  constructor
  · intro aim_rad s₁ s₂ is_slow ha hle
    unfold autoDecimals
    have : autoDecimalsRaw aim_rad s₂ ≤ autoDecimalsRaw aim_rad s₁ := by
      by_cases h1 : s₁ = 0
      · subst h1
        by_cases h2 : s₂ = 0
        · subst h2; exact le_refl _
        · have : autoDecimalsRaw aim_rad 0 = 15 := by
            unfold autoDecimalsRaw
            rw [if_pos rfl, if_pos ha]
          rw [this]
          exact autoDecimalsRaw_le_15 aim_rad s₂
      · have h2 : s₂ ≠ 0 := by
          intro h
          subst h
          simp only [abs_zero] at hle
          exact h1 (abs_eq_zero.mp (le_antisymm hle (abs_nonneg s₁)))
        rw [autoDecimalsRaw_eq_clog aim_rad s₁ ha h1,
          autoDecimalsRaw_eq_clog aim_rad s₂ ha h2]
        have habs : (0 : ℚ) < |s₁| := abs_pos.mpr h1
        have hdiv : aim_rad / |s₂| ≤ aim_rad / |s₁| :=
          div_le_div_of_nonneg_left (le_of_lt ha) habs hle
        have hpos : (0 : ℚ) < aim_rad / |s₂| :=
          div_pos ha (lt_of_lt_of_le habs hle)
        have hc := Int.clog_mono_right (b := 10) hpos hdiv
        exact Int.toNat_le_toNat (min_le_min (le_refl 15) (max_le_max (le_refl 0) hc))
    exact Nat.add_le_add_right this _
  · intro aim_rad speed
    unfold autoDecimals
    simp

/-- C8 witness: doubling the speed at aim_radius 10 does not increase the
inferred decimals. -/
theorem C8_witness : autoDecimals 10 2 false ≤ autoDecimals 10 1 false :=
  C8_precision_monotonicity.1 10 1 2 false (by decide) (by decide)

/-- `MonoState` (drag_value.rs 10-17): the shared per-context state for all
`DragValue` widgets — identity and accumulated full-precision value of the
last-dragged widget, and the single text-edit scratch string.  Widget
identities (`Id`) are opaque hashable keys, modelled as `ℕ`. -/
structure MonoState where
  last_dragged_id : Option ℕ
  last_dragged_value : Option ℚ
  edit_string : Option String
deriving DecidableEq, Repr

/-- The two per-frame pointer predicates `MonoState::end_frame` reads from
`InputState`: whether any pointer button was pressed, resp. released, this
frame. -/
structure PointerSnapshot where
  any_pressed : Bool
  any_released : Bool
deriving DecidableEq, Repr

/-- `MonoState::end_frame` (drag_value.rs 20-25): on a pointer press or
release edge, clear the drag-session identity and accumulated value. -/
def MonoState.end_frame (s : MonoState) (input : PointerSnapshot) : MonoState :=
  if input.any_pressed || input.any_released then
    { s with last_dragged_id := none, last_dragged_value := none }
  else s

/-- C7: after `end_frame` on a frame with a pointer-press or pointer-release
edge, the drag-session identity and accumulated value are both `none`,
regardless of prior state; on a frame with neither edge the state is left
exactly as it was. -/
theorem C7_end_frame_reset (s : MonoState) (input : PointerSnapshot) :
    ((input.any_pressed || input.any_released) = true →
      (s.end_frame input).last_dragged_id = none
        ∧ (s.end_frame input).last_dragged_value = none)
    ∧ ((input.any_pressed || input.any_released) = false → s.end_frame input = s) := by
  unfold MonoState.end_frame
  constructor
  · intro h
    rw [if_pos h]
    exact ⟨rfl, rfl⟩
  · intro h
    rw [h]
    rfl

/-- C7 witness: a frame with a press edge wipes a fully populated session
state. -/
theorem C7_witness :
    (MonoState.end_frame ⟨some 7, some 100, some "1"⟩ ⟨true, false⟩).last_dragged_id = none
      ∧ (MonoState.end_frame ⟨some 7, some 100, some "1"⟩ ⟨true, false⟩).last_dragged_value
          = none :=
  (C7_end_frame_reset ⟨some 7, some 100, some "1"⟩ ⟨true, false⟩).1 rfl

/-- C10: `end_frame` only ever touches the drag-session fields: the
text-edit scratch string is unchanged for every prior state and every
pointer snapshot, edges included. -/
theorem C10_end_frame_preserves_edit_string (s : MonoState) (input : PointerSnapshot) :
    (s.end_frame input).edit_string = s.edit_string := by
  unfold MonoState.end_frame
  split_ifs <;> rfl

/-- The dragged-with-nonzero-delta frame step (drag_value.rs 462-485),
parameterized by the two `emath` primitives the widget calls and this
repository treats as external utilities: `best_in_range` is
`emath::smart_aim::best_in_range_f64` ("most human-friendly value in the
interval") and `round_to` is `emath::round_to_decimals`.  Inputs: the shared
`MonoState`, this widget's identity `widget_id` (`response.id`), the current
committed `value` (already clamp-normalized by line 375), this frame's
`delta_value = delta_points * speed`, the aim radius, the effective speed,
the effective `auto_decimals`, and the clamp range.  Output: the value
committed through the accessor and the updated shared state.  With a zero
delta nothing happens (lines 462: `if delta_value != 0.0`). -/
def dragFrame (best_in_range : ℚ → ℚ → ℚ) (round_to : ℚ → ℕ → ℚ)
    (drag_state : MonoState) (widget_id : ℕ) (value delta_value aim_rad speed : ℚ)
    (auto_decimals : ℕ) (lo hi : ℚ) : ℚ × MonoState :=
  if delta_value ≠ 0 then
    let stored0 : Option ℚ :=
      if drag_state.last_dragged_id = some widget_id then drag_state.last_dragged_value
      else none
    let stored := stored0.getD value + delta_value
    let aim_delta := aim_rad * speed
    let rounded := round_to (best_in_range (stored - aim_delta) (stored + aim_delta))
      auto_decimals
    (clampQ rounded lo hi,
      { drag_state with
          last_dragged_id := some widget_id
          last_dragged_value := some stored })
  else (value, drag_state)

/-- C3: on a dragging frame with nonzero delta, the baseline is the stored
accumulated value when the session's recorded identity matches this widget
(and the current committed value otherwise); the committed value is the
smart-aim selection from `[baseline + delta - aim_rad*speed,
baseline + delta + aim_rad*speed]`, rounded to `auto_decimals` digits and
range-clamped; and the value stored back into the session under this
widget's identity is the unrounded `baseline + delta`.  Universally
quantified over the two external primitives. -/
theorem C3_drag_accumulator (best_in_range : ℚ → ℚ → ℚ) (round_to : ℚ → ℕ → ℚ)
    (st : MonoState) (widget_id : ℕ) (value delta aim_rad speed : ℚ)
    (auto_decimals : ℕ) (lo hi : ℚ) (hne : delta ≠ 0) :
    (∀ acc, st.last_dragged_id = some widget_id → st.last_dragged_value = some acc →
      dragFrame best_in_range round_to st widget_id value delta aim_rad speed
          auto_decimals lo hi
        = (clampQ (round_to (best_in_range (acc + delta - aim_rad * speed)
              (acc + delta + aim_rad * speed)) auto_decimals) lo hi,
           { st with
               last_dragged_id := some widget_id
               last_dragged_value := some (acc + delta) }))
    ∧ (st.last_dragged_id ≠ some widget_id →
      dragFrame best_in_range round_to st widget_id value delta aim_rad speed
          auto_decimals lo hi
        = (clampQ (round_to (best_in_range (value + delta - aim_rad * speed)
              (value + delta + aim_rad * speed)) auto_decimals) lo hi,
           { st with
               last_dragged_id := some widget_id
               last_dragged_value := some (value + delta) })) := by
  constructor
  · intro acc hid hval
    unfold dragFrame
    rw [if_pos hne, if_pos hid, hval]
    rfl
  · intro hid
    unfold dragFrame
    rw [if_pos hne, if_neg hid]
    rfl

/-- C3 witness: a continuing drag session (identity 7 matches, accumulated
value 100) with delta 1, instantiated at identity primitives. -/
theorem C3_witness :
    dragFrame (fun lo _ => lo) (fun x _ => x) ⟨some 7, some 100, none⟩ 7 5 1 0 1 0 0 200
      = (clampQ (100 + 1 - 0 * 1) 0 200, ⟨some 7, some (100 + 1), none⟩) :=
  (C3_drag_accumulator (fun lo _ => lo) (fun x _ => x) ⟨some 7, some 100, none⟩ 7 5 1 0 1 0 0
      200 (by decide)).1 100 rfl rfl

/-- The text-edit-mode value flow of one frame (drag_value.rs 374-378 and
414-421): the accessor's value is first clamp-normalized (and written back
when that changes it); then, when the (custom or default) parser yields a
value for the current edit text, that value is clamped and written; a `none`
parse writes nothing further.  The result is the end-of-frame accessor
read. -/
def textEditFrame (lo hi old_value : ℚ) (parsed : Option ℚ) : ℚ :=
  let value := clampQ old_value lo hi
  match parsed with
  | some parsed_value => clampQ parsed_value lo hi
  | none => value

/-- C6 counterexample: with clamp range `[0, 10]`, a stored value `20` and a
failing parse, the pre-frame accessor read is `20` but the post-frame read
is `10`: the frame's initial clamp-normalization (line 375-377) writes even
when the parser yields `None`, so the claim's "pre-frame and post-frame
accessor reads are equal" fails. -/
theorem C6_counterexample_normalization_write : textEditFrame 0 10 20 none ≠ 20 := by
  decide

/-- C6 amended: on a parse-failure frame no parsed value is written: the
post-frame read equals the clamp-normalization of the pre-frame read, and in
particular equals the pre-frame read whenever that value already lies within
the clamp range. -/
theorem C6_parse_failure_leaves_value (lo hi old_value : ℚ)
    (hin : clampQ old_value lo hi = old_value) :
    textEditFrame lo hi old_value none = old_value := by
  unfold textEditFrame
  exact hin

/-- C6 witness: an in-range value survives a parse-failure frame
unchanged. -/
theorem C6_witness : textEditFrame 0 10 5 none = 5 :=
  C6_parse_failure_leaves_value 0 10 5 (by decide)

/-- The configuration one of the three base-encoding builders installs:
the radix, the minimum digit width, and whether negative values are shown
as the 64-bit two's-complement bit pattern instead of sign + magnitude.
(`DragValue::hexadecimal` also takes `upper`, which only selects the digit
glyph case `a-f`/`A-F`; at the digit-value level of this model the two
cases are identical, so it is not recorded.) -/
structure BaseConfig where
  base : ℕ
  min_width : ℕ
  twos_complement : Bool
deriving DecidableEq, Repr

/-- `DragValue::binary` (drag_value.rs 262-276): `none` models the
`assert!(min_width > 0)` panic. -/
def DragValue.binary (min_width : ℕ) (twos_complement : Bool) : Option BaseConfig :=
  if 0 < min_width then some ⟨2, min_width, twos_complement⟩ else none

/-- `DragValue::octal` (drag_value.rs 297-311): `none` models the
`assert!(min_width > 0)` panic. -/
def DragValue.octal (min_width : ℕ) (twos_complement : Bool) : Option BaseConfig :=
  if 0 < min_width then some ⟨8, min_width, twos_complement⟩ else none

set_option linter.unusedVariables false in
/-- `DragValue::hexadecimal` (drag_value.rs 332-354): `none` models the
`assert!(min_width > 0)` panic; `upper` only picks the glyph case, which the
digit-value level of this model cannot observe. -/
def DragValue.hexadecimal (min_width : ℕ) (twos_complement upper : Bool) : Option BaseConfig :=
  if 0 < min_width then some ⟨16, min_width, twos_complement⟩ else none

/-- Most-significant-first base-`b` digit values of `n` (what `{:b}`, `{:o}`,
`{:x}`/`{:X}` print, before padding); `n = 0` gives `[]` here while Rust
prints "0", but under the builders' `min_width ≥ 1` zero-padding the two
agree. -/
def natDigitsM (b n : ℕ) : List ℕ := (Nat.digits b n).reverse

/-- The `{:0>min_width$...}` padding: left-pad with zero digits up to `w`. -/
def zeroPad (w : ℕ) (ds : List ℕ) : List ℕ := List.replicate (w - ds.length) 0 ++ ds

/-- The text a configured base formatter produces for an integer value `n`
(drag_value.rs 267-274 / 302-309 / 337-352), modelled as a sign flag (`true`
iff a literal `-` is prepended) plus the padded digit values; the digit
characters of a fixed base and case are in bijection with their values, so
nothing of the string is lost.  The widget passes the `f64` value through
`as i64` (saturating); this model takes the exactly-representable integer
`n` directly, so the cast is the identity.  Two's-complement mode formats
the `i64` bit pattern, i.e. the base-`b` digits of `n mod 2^64`, with no
sign character; signed mode formats the magnitude `|n|` with a `-` sign for
negative `n`. -/
def formatBase (cfg : BaseConfig) (n : ℤ) : Bool × List ℕ :=
  if cfg.twos_complement = true then
    (false, zeroPad cfg.min_width (natDigitsM cfg.base (n % (2 ^ 64 : ℤ)).toNat))
  else
    (decide (n < 0), zeroPad cfg.min_width (natDigitsM cfg.base n.natAbs))

/-- `i64::from_str_radix` (the parser all three builders install,
drag_value.rs 275/310/353) on the (sign, digit values) view of a string:
there must be at least one digit and every digit must be below the radix;
the signed value must fit in `i64`.  Rust checks overflow at each
accumulation step, which is equivalent to the final range check here since
the accumulated magnitude is nondecreasing.  Out-of-range or malformed text
gives `none` (`.ok()` of an `Err`). -/
def i64FromStrRadix (base : ℕ) (neg : Bool) (ds : List ℕ) : Option ℤ :=
  if ds ≠ [] ∧ ∀ d ∈ ds, d < base then
    let m : ℕ := ds.foldl (fun acc d => acc * base + d) 0
    let v : ℤ := if neg = true then -(m : ℤ) else (m : ℤ)
    if -(2 ^ 63) ≤ v ∧ v ≤ 2 ^ 63 - 1 then some v else none
  else none

theorem foldl_horner_replicate_zero (b k : ℕ) (l : List ℕ) :
    (List.replicate k 0 ++ l).foldl (fun acc d => acc * b + d) 0
      = l.foldl (fun acc d => acc * b + d) 0 := by
  rw [List.foldl_append]
  congr 1
  induction k with
  | zero => rfl
  | succ k ih =>
    rw [List.replicate_succ, List.foldl_cons, Nat.zero_mul, Nat.zero_add]
    exact ih

theorem foldl_horner_reverse (b : ℕ) (l : List ℕ) :
    l.reverse.foldl (fun acc d => acc * b + d) 0 = Nat.ofDigits b l := by
  induction l with
  | nil => simp [Nat.ofDigits]
  | cons x xs ih =>
    rw [List.reverse_cons, List.foldl_append, ih, Nat.ofDigits_cons]
    simp only [List.foldl_cons, List.foldl_nil]
    ring

theorem zeroPad_digits_foldl (b w m : ℕ) :
    (zeroPad w (natDigitsM b m)).foldl (fun acc d => acc * b + d) 0 = m := by
  unfold zeroPad natDigitsM
  rw [foldl_horner_replicate_zero, foldl_horner_reverse]
  exact Nat.ofDigits_digits b m

theorem zeroPad_digits_lt (b w m : ℕ) (hb : 1 < b) :
    ∀ d ∈ zeroPad w (natDigitsM b m), d < b := by
  intro d hd
  unfold zeroPad natDigitsM at hd
  rcases List.mem_append.mp hd with h | h
  · rw [List.eq_of_mem_replicate h]; omega
  · exact Nat.digits_lt_base hb (List.mem_reverse.mp h)

theorem zeroPad_length (w : ℕ) (ds : List ℕ) : (zeroPad w ds).length = max w ds.length := by
  unfold zeroPad
  rw [List.length_append, List.length_replicate]
  omega

theorem zeroPad_ne_nil (w : ℕ) (hw : 0 < w) (ds : List ℕ) : zeroPad w ds ≠ [] := by
  intro h
  have hlen := congrArg List.length h
  rw [zeroPad_length] at hlen
  simp only [List.length_nil] at hlen
  omega

/-- C9: each of the binary, octal and hexadecimal builders asserts
`min_width > 0` at construction — `min_width = 0` is fatal immediately
(`none`), for every mode flag — while any `min_width ≥ 1` constructs the
encoding configuration. -/
theorem C9_builder_min_width_assert :
    (∀ tw up : Bool, DragValue.binary 0 tw = none ∧ DragValue.octal 0 tw = none
      ∧ DragValue.hexadecimal 0 tw up = none)
    ∧ (∀ (mw : ℕ) (tw up : Bool), 0 < mw →
        DragValue.binary mw tw = some ⟨2, mw, tw⟩
        ∧ DragValue.octal mw tw = some ⟨8, mw, tw⟩
        ∧ DragValue.hexadecimal mw tw up = some ⟨16, mw, tw⟩) := by
  constructor
  · intro tw up
    exact ⟨rfl, rfl, rfl⟩
  · intro mw tw up h
    unfold DragValue.binary DragValue.octal DragValue.hexadecimal
    rw [if_pos h, if_pos h, if_pos h]
    exact ⟨rfl, rfl, rfl⟩

/-- C9 witness: the 64-bit binary configuration of the crate's doc example
constructs. -/
theorem C9_witness : DragValue.binary 64 false = some ⟨2, 64, false⟩ :=
  ((C9_builder_min_width_assert.2 64 false false) (by decide)).1

/-- C4 counterexample: `binary(1, true)` formats `-1` as the 64-bit
two's-complement pattern (sixty-four `1` digits, no sign), whose value
`2^64 - 1` exceeds `i64::MAX`, so `i64::from_str_radix` fails and the
parse yields `none` — not `some (-1)` as the claim's round-trip for
twos-complement mode requires. -/
theorem C4_counterexample_twos_negative :
    i64FromStrRadix 2 (formatBase ⟨2, 1, true⟩ (-1)).1 (formatBase ⟨2, 1, true⟩ (-1)).2
      = none := by
  have hm : (((-1 : ℤ) % 2 ^ 64).toNat) = 2 ^ 64 - 1 := by decide
  have hfmt : formatBase ⟨2, 1, true⟩ (-1) = (false, zeroPad 1 (natDigitsM 2 (2 ^ 64 - 1))) := by
    simp [formatBase, hm]
  rw [hfmt]
  unfold i64FromStrRadix
  rw [if_pos ⟨zeroPad_ne_nil 1 (by decide) _, zeroPad_digits_lt 2 1 _ (by decide)⟩]
  simp only [zeroPad_digits_foldl, Bool.false_eq_true, if_false]
  rw [if_neg]
  intro hrange
  exact absurd hrange.2 (by norm_num)

/-- C4 amended: for radix `base ≥ 2` (binary/octal/hex are 2, 8, 16),
`min_width ≥ 1` and an integer `n` whose magnitude is at most `2^53` (so the
`f64` holding it is exact and the `as i64` cast is the identity), parsing
the formatted text yields `n` again in sign-prefix mode for every such `n`,
and in twos-complement mode for every such `n ≥ 0`; negative `n` in
twos-complement mode does not round-trip (see the counterexample: the
64-digit pattern overflows `i64`).  The padded digit portion has length
exactly `min_width` whenever the natural digit count is at most
`min_width`. -/
theorem C4_base_roundtrip (base mw : ℕ) (tw : Bool) (n : ℤ)
    (hb : 1 < base) (hw : 0 < mw) (hn : n.natAbs ≤ 2 ^ 53) :
    (tw = false →
      i64FromStrRadix base (formatBase ⟨base, mw, tw⟩ n).1 (formatBase ⟨base, mw, tw⟩ n).2
        = some n)
    ∧ (tw = true → 0 ≤ n →
      i64FromStrRadix base (formatBase ⟨base, mw, tw⟩ n).1 (formatBase ⟨base, mw, tw⟩ n).2
        = some n)
    ∧ (tw = false → (natDigitsM base n.natAbs).length ≤ mw →
        (formatBase ⟨base, mw, tw⟩ n).2.length = mw)
    ∧ (tw = true → (natDigitsM base (n % 2 ^ 64).toNat).length ≤ mw →
        (formatBase ⟨base, mw, tw⟩ n).2.length = mw) := by
  have hn2 : n.natAbs ≤ 9007199254740992 := le_trans hn (by norm_num)
  have he : ((2 : ℤ) ^ 63) = 9223372036854775808 := by norm_num
  refine ⟨?_, ?_, ?_, ?_⟩
  · intro htw
    subst htw
    have h1 : (formatBase ⟨base, mw, false⟩ n).1 = decide (n < 0) := by
      simp [formatBase]
    have h2 : (formatBase ⟨base, mw, false⟩ n).2 = zeroPad mw (natDigitsM base n.natAbs) := by
      simp [formatBase]
    rw [h1, h2]
    unfold i64FromStrRadix
    rw [if_pos ⟨zeroPad_ne_nil mw hw _, zeroPad_digits_lt base mw _ hb⟩]
    simp only [zeroPad_digits_foldl]
    have hv : (if decide (n < 0) = true then -((n.natAbs : ℤ)) else (n.natAbs : ℤ)) = n := by
      rcases lt_or_le n 0 with h | h
      · rw [if_pos (by simpa using h)]
        omega
      · rw [if_neg (by simpa using not_lt.mpr h)]
        omega
    rw [hv, he]
    rw [if_pos (by omega)]
  · intro htw hpos
    subst htw
    have h1 : (formatBase ⟨base, mw, true⟩ n).1 = false := by
      simp [formatBase]
    have h2 : (formatBase ⟨base, mw, true⟩ n).2
        = zeroPad mw (natDigitsM base (n % 2 ^ 64).toNat) := by
      simp [formatBase]
    rw [h1, h2]
    unfold i64FromStrRadix
    rw [if_pos ⟨zeroPad_ne_nil mw hw _, zeroPad_digits_lt base mw _ hb⟩]
    simp only [zeroPad_digits_foldl, Bool.false_eq_true, if_false]
    have hmod : n % (2 ^ 64 : ℤ) = n := by
      refine Int.emod_eq_of_lt hpos ?_
      have h53 : n ≤ 9007199254740992 := by omega
      have h64 : ((2 : ℤ) ^ 64) = 18446744073709551616 := by norm_num
      omega
    have htn : (((n % 2 ^ 64 : ℤ)).toNat : ℤ) = n := by
      rw [hmod]
      exact Int.toNat_of_nonneg hpos
    rw [htn, he]
    rw [if_pos (by omega)]
  · intro htw hlen
    subst htw
    have h2 : (formatBase ⟨base, mw, false⟩ n).2 = zeroPad mw (natDigitsM base n.natAbs) := by
      simp [formatBase]
    rw [h2, zeroPad_length]
    omega
  · intro htw hlen
    subst htw
    have h2 : (formatBase ⟨base, mw, true⟩ n).2
        = zeroPad mw (natDigitsM base (n % 2 ^ 64).toNat) := by
      simp [formatBase]
    rw [h2, zeroPad_length]
    omega

/-- C4 witness: the sign-prefix binary round-trip at `n = -5`,
`min_width = 4`, with all hypotheses discharged by evaluation. -/
theorem C4_witness :
    i64FromStrRadix 2 (formatBase ⟨2, 4, false⟩ (-5)).1 (formatBase ⟨2, 4, false⟩ (-5)).2
      = some (-5) :=
  (C4_base_roundtrip 2 4 false (-5) (by decide) (by decide) (by norm_num)).1 rfl
